import Mathlib

set_option maxHeartbeats 1000000
set_option maxRecDepth 10000

/-!
Verification development for the bolt.new streaming-directive core.

Part 1: the incremental directive parser (spec section 4.1, the
StreamingMessageParser of app/lib/runtime/message-parser.ts, outlined in
src/FLOW_DOCUMENTATION.md lines 278-355).  The parser source file itself is
not among the provided sources, so the parser is modelled from the spec:
a per-stream state machine that consumes one character at a time, buffers
the unresolved suffix (a potential tag) in `pending`, emits sanitized text
and lifecycle events, and never fails.

Part 2: the action execution engine (spec section 4.2, ActionRunner of
app/lib/runtime/action-runner.ts, outlined in src/FLOW_DOCUMENTATION.md
lines 443-541 and 958-978).  Also modelled from the spec and the code
excerpts in src/FLOW_DOCUMENTATION.md.

Part 3: functions taken directly from the provided sources:
`enhancePrompt` (src/app/lib/hooks/usePromptEnhancer.ts) and
`formatFileSize` (src/app/components/chat/AttachmentDropdown.tsx).
-/

namespace Bolt

/-- Modelled from the spec: lifecycle events of section 4.1 (the parser source
app/lib/runtime/message-parser.ts is not in the provided sources).  Each event
carries the directive's fully-known fields at the time of the event; only
`actionClosed` carries an action's payload. -/
inductive Event where
  | artifactOpened (aid title : String)
  | actionReady (aid : String) (ordinal : Nat) (ty : String) (filePath : Option String)
  | actionClosed (aid : String) (ordinal : Nat) (content : String)
  | artifactClosed (aid : String)
  deriving Repr, DecidableEq

/-- Modelled from the spec: the parser's position in the directive grammar.
Corresponds to the insideArtifact / insideAction flags and current
artifact/action references of MessageState (src/FLOW_DOCUMENTATION.md lines
296-306); `literal` is the mode entered on malformed artifact nesting (spec
section 4.1: the parser stops special-casing and passes text through).  Raw
opening-tag texts are retained so unterminated directives can be surfaced
literally when the stream is finalized (spec section 4.1). -/
inductive PMode where
  | outside
  | literal
  | inArtifact (aid : String) (araw : List Char)
  | inAction (aid : String) (araw : List Char) (ordinal : Nat) (actRaw : List Char)
      (content : List Char)
  deriving Repr, DecidableEq

/-- Modelled from the spec: per-stream parser state (spec section 3, "Parser
state").  `pending` is the buffered unresolved suffix (always a viable tag
head, empty or starting with the tag-opening character); `counter` is the
monotonically increasing per-artifact action counter used for ordinals. -/
structure PState where
  mode : PMode
  pending : List Char
  counter : Nat
  deriving Repr, DecidableEq

/-- Initial parser state for a fresh stream id. -/
def initState : PState := ⟨.outside, [], 0⟩

/-- Head of the artifact opening tag (spec section 4.1 grammar). -/
def artifactOpenHead : List Char := "<artifact".data

/-- Head of the action opening tag (spec section 4.1 grammar). -/
def actionOpenHead : List Char := "<action".data

/-- Full artifact closing tag (spec section 4.1 grammar). -/
def artifactCloseTag : List Char := "</artifact>".data

/-- Full action closing tag (spec section 4.1 grammar). -/
def actionCloseTag : List Char := "</action>".data

/-- Modelled from the spec: attribute scanner, tolerating attributes in any
order and double- or single-quoted values (spec section 4.1).  A value that
contains its own delimiter is not supported, matching the documented
limitation; a malformed remainder yields no further attributes (never an
error).  The fuel argument bounds recursion; each call consumes it by one. -/
def parseAttrsAux : Nat → List Char → List (String × String)
  | 0, _ => []
  | _ + 1, [] => []
  | fuel + 1, c :: rest =>
    if c.isWhitespace then
      parseAttrsAux fuel rest
    else
      let name := (c :: rest).takeWhile (fun d => !(d == '=') && !d.isWhitespace)
      match (c :: rest).drop name.length with
      | '=' :: '"' :: rest2 =>
          let value := rest2.takeWhile (fun d => !(d == '"'))
          (String.mk name, String.mk value) :: parseAttrsAux fuel (rest2.drop (value.length + 1))
      | '=' :: '\'' :: rest2 =>
          let value := rest2.takeWhile (fun d => !(d == '\''))
          (String.mk name, String.mk value) :: parseAttrsAux fuel (rest2.drop (value.length + 1))
      | _ => []

/-- Attribute extraction from the text between a tag head and the closing
angle bracket. -/
def parseAttrs (s : List Char) : List (String × String) :=
  parseAttrsAux (s.length + 1) s

/-- Whether the buffered text `p` is still a viable prefix of an opening tag
with head `head`: either a prefix of the head itself, or the head followed by
whitespace and attribute text that has not yet reached the closing angle
bracket. -/
def viableOpen (head p : List Char) : Bool :=
  if p.length ≤ head.length then
    p.isPrefixOf head
  else
    head.isPrefixOf p &&
      (match p.drop head.length with
       | c :: rest => c.isWhitespace && rest.all (fun d => !(d == '<') && !(d == '>'))
       | [] => true)

/-- Modelled from the spec: which buffered texts are still possibly a
recognized tag for the current mode (spec section 4.1: the parser defers
emitting content it cannot yet classify until subsequent bytes disambiguate
it).  Inside an action only the action closing tag is special; inside an
artifact the action tags, the artifact closing tag and a (malformed) second
artifact opening tag are; outside only the artifact opening tag is. -/
def viable : PMode → List Char → Bool
  | .outside, p => viableOpen artifactOpenHead p
  | .inArtifact _ _, p =>
      viableOpen artifactOpenHead p || viableOpen actionOpenHead p ||
        p.isPrefixOf artifactCloseTag
  | .inAction _ _ _ _ _, p => p.isPrefixOf actionCloseTag
  | .literal, _ => false

/-- Attribute list of a complete opening tag with head `head`, if the text is
such a tag: either the bare head closed immediately, or the head, whitespace
and attribute text. -/
def openTagAttrs (head p : List Char) : Option (List (String × String)) :=
  if p == head ++ ['>'] then some []
  else if head.isPrefixOf p then
    match p.drop head.length with
    | c :: rest =>
        if c.isWhitespace && (p.getLast? == some '>') then
          some (parseAttrs rest.dropLast)
        else none
    | [] => none
  else none

/-- Moves the pending buffer into the surrounding text: inside an action it
belongs to the payload, otherwise it is sanitized output (literal
passthrough of a span that turned out not to be a tag). -/
def flushPending (st : PState) : PState × List Char :=
  match st.mode with
  | .inAction aid araw ord actRaw content =>
      ({ st with mode := .inAction aid araw ord actRaw (content ++ st.pending),
                 pending := [] }, [])
  | _ => ({ st with pending := [] }, st.pending)

/-- Modelled from the spec: resolution of a complete candidate tag `p` (the
old pending buffer plus the just-arrived closing angle bracket).  Recognized
tags fire their event and change mode; a second artifact opening tag inside
an artifact is malformed and switches the parser to literal passthrough
(spec section 4.1 nesting policy); anything else degrades to literal text
(outside an action) or payload text (inside one). -/
def completeStep (st : PState) (p : List Char) : PState × List Char × List Event :=
  match st.mode with
  | .outside =>
    match openTagAttrs artifactOpenHead p with
    | some attrs =>
        let aid := ((attrs.lookup "id").getD "")
        let title := ((attrs.lookup "title").getD "")
        (⟨.inArtifact aid p, [], 0⟩, [], [.artifactOpened aid title])
    | none => ({ st with pending := [] }, p, [])
  | .literal => ({ st with pending := [] }, p, [])
  | .inArtifact aid araw =>
    if p = artifactCloseTag then
      ({ st with mode := .outside, pending := [] }, [], [.artifactClosed aid])
    else
      match openTagAttrs actionOpenHead p with
      | some attrs =>
          let ty := ((attrs.lookup "type").getD "")
          let fp := attrs.lookup "filePath"
          (⟨.inAction aid araw st.counter p [], [], st.counter + 1⟩, [],
           [.actionReady aid st.counter ty fp])
      | none =>
        match openTagAttrs artifactOpenHead p with
        | some _ => (⟨.literal, [], st.counter⟩, p, [])
        | none => ({ st with pending := [] }, p, [])
  | .inAction aid araw ord actRaw content =>
    if p = actionCloseTag then
      ({ st with mode := .inArtifact aid araw, pending := [] }, [],
       [.actionClosed aid ord (String.mk content)])
    else
      ({ st with mode := .inAction aid araw ord actRaw (content ++ p), pending := [] },
       [], [])

/-- One character arriving while nothing is buffered: a tag-opening character
starts the pending buffer, anything else is payload (inside an action) or
sanitized output (elsewhere; in literal mode everything passes through). -/
def emptyPendingStep (st : PState) (c : Char) : PState × List Char × List Event :=
  match st.mode with
  | .literal => (st, [c], [])
  | .inAction aid araw ord actRaw content =>
      if c == '<' then ({ st with pending := ['<'] }, [], [])
      else ({ st with mode := .inAction aid araw ord actRaw (content ++ [c]) }, [], [])
  | _ =>
      if c == '<' then ({ st with pending := ['<'] }, [], [])
      else (st, [c], [])

/-- Modelled from the spec: one character of input.  With a nonempty pending
buffer, a closing angle bracket resolves the candidate tag; otherwise the
buffer grows while it stays viable and is flushed as literal text (and the
character reprocessed) the moment it is disambiguated as a non-tag. -/
def step (st : PState) (c : Char) : PState × List Char × List Event :=
  match st.pending with
  | [] => emptyPendingStep st c
  | p =>
    let p' := p ++ [c]
    if c == '>' then
      completeStep st p'
    else if viable st.mode p' then
      ({ st with pending := p' }, [], [])
    else
      let r := flushPending st
      let r2 := emptyPendingStep r.1 c
      (r2.1, r.2 ++ r2.2.1, r2.2.2)

/-- Character-by-character processing of a chunk: state out, sanitized output
out, events out.  This is the body of StreamingMessageParser.parse
(src/FLOW_DOCUMENTATION.md lines 284-294), modelled from the spec. -/
def processChars : PState → List Char → PState × List Char × List Event
  | st, [] => (st, [], [])
  | st, c :: cs =>
    let r := step st c
    let r2 := processChars r.1 cs
    (r2.1, r.2.1 ++ r2.2.1, r.2.2 ++ r2.2.2)

/-- Modelled from the spec: `consume(streamId, chunk) -> sanitizedText` for a
single stream id (the per-id map of MessageState values is keyed elsewhere;
calls are strictly sequential per stream id).  Keeps the source name `parse`
of StreamingMessageParser.parse. -/
def parse (st : PState) (chunk : String) : PState × String × List Event :=
  let r := processChars st chunk.data
  (r.1, String.mk r.2.1, r.2.2)

/-- Sequential feeding of a list of chunks through `parse`, concatenating the
per-call sanitized outputs and event lists (spec section 4.1: the full
sanitized output for a stream is the concatenation of all per-call
results). -/
def parseAll (st : PState) : List String → PState × String × List Event
  | [] => (st, "", [])
  | c :: cs =>
    let r := parse st c
    let r2 := parseAll r.1 cs
    (r2.1, r.2.1 ++ r2.2.1, r.2.2 ++ r2.2.2)

/-- Modelled from the spec: explicit end-of-stream finalization.  Unterminated
directives are surfaced as their literal source text rather than silently
dropped (spec section 4.1): the raw opening tags of any unclosed artifact and
action, the partial payload, and the pending buffer. -/
def finalize (st : PState) : List Char :=
  match st.mode with
  | .outside => st.pending
  | .literal => st.pending
  | .inArtifact _ araw => araw ++ st.pending
  | .inAction _ araw _ actRaw content => araw ++ actRaw ++ content ++ st.pending

theorem mk_append (a b : List Char) : String.mk (a ++ b) = String.mk a ++ String.mk b := rfl

/-- Chunk decomposition: processing a concatenation equals processing the
pieces in sequence, threading the state and concatenating outputs and
events. -/
theorem processChars_append (a : List Char) : ∀ (st : PState) (b : List Char),
    processChars st (a ++ b) =
      ((processChars (processChars st a).1 b).1,
       (processChars st a).2.1 ++ (processChars (processChars st a).1 b).2.1,
       (processChars st a).2.2 ++ (processChars (processChars st a).1 b).2.2) := by
  induction a with
  | nil => intro st b; simp [processChars]
  | cons c cs ih => intro st b; simp [processChars, ih, List.append_assoc]

/-- Feeding chunks one by one equals feeding their concatenation. -/
theorem parseAll_eq_parse_concat : ∀ (chunks : List String) (st : PState),
    parseAll st chunks = parse st (chunks.foldr (· ++ ·) "") := by
  intro chunks
  induction chunks with
  | nil => intro st; rfl
  | cons c cs ih =>
    intro st
    show parseAll st (c :: cs) = parse st (c ++ cs.foldr (· ++ ·) "")
    simp only [parseAll, ih, parse, String.data_append, processChars_append]
    exact rfl

/-- Splitting a text into its single characters concatenates back to the
text. -/
theorem foldr_singletons (l : List Char) :
    (l.map (fun c => String.mk [c])).foldr (· ++ ·) "" = String.mk l := by
  induction l with
  | nil => rfl
  | cons c cs ih =>
    show String.mk [c] ++ (cs.map (fun c => String.mk [c])).foldr (· ++ ·) "" = _
    rw [ih, ← mk_append]
    rfl

/-- Concrete text of the spec's chunk-invariance test case (spec section 8). -/
def exampleT : String :=
  "Hello <artifact id=\"a1\" title=\"Demo\"><action type=\"file\" filePath=\"x.txt\">hi</action></artifact> bye"

/-- Events the spec expects for `exampleT` (spec section 8). -/
def exampleEvents : List Event :=
  [.artifactOpened "a1" "Demo", .actionReady "a1" 0 "file" (some "x.txt"),
   .actionClosed "a1" 0 "hi", .artifactClosed "a1"]

/-- C1: chunk-invariance of the parser.  For every starting state and every
way of splitting a text into chunks, feeding the chunks sequentially through
`parse` yields the same final state, the same sanitized output (concatenation
of per-call results) and the same event sequence as feeding the concatenation
as one single chunk.  In particular the spec's concrete case: splitting
`exampleT` at every single character yields the same four events and
sanitized text "Hello  bye" (payload stripped) as not splitting at all. -/
theorem parse_chunk_invariance :
    (∀ (st : PState) (chunks : List String),
        parseAll st chunks = parse st (chunks.foldr (· ++ ·) "")) ∧
    (parse initState exampleT).2 = ("Hello  bye", exampleEvents) ∧
    (parseAll initState (exampleT.data.map (fun c => String.mk [c]))).2 =
      ("Hello  bye", exampleEvents) := by
  refine ⟨fun st chunks => parseAll_eq_parse_concat chunks st, by decide, ?_⟩
  rw [parseAll_eq_parse_concat, foldr_singletons]
  decide

/-- Text containing no tag-opening character is passed through unchanged from
the initial state, with no events. -/
theorem processChars_passthrough : ∀ (s : List Char), '<' ∉ s →
    processChars initState s = (initState, s, []) := by
  intro s
  induction s with
  | nil => intro _; rfl
  | cons c cs ih =>
    intro h
    have hc : ¬('<' = c ∨ '<' ∈ cs) := fun hmem => h (List.mem_cons.mpr hmem)
    push_neg at hc
    have hcs := ih hc.2
    have hcne : (c == '<') = false := by
      exact beq_eq_false_iff_ne.mpr (fun he => hc.1 he.symm)
    have hstep : step initState c = (initState, [c], []) := by
      simp [step, initState, emptyPendingStep, hcne]
    simp [processChars, hstep, hcs]

/-- C7: parse errors are never fatal (the parser is a total function; a
malformed span degrades to literal passthrough text) and unterminated tags
are surfaced literally at end of stream.  Conjuncts: tag-free text passes
through verbatim with no events; the malformed span in "a <foo> b" is
emitted literally, with no events and no state corruption; the spec's
unterminated-tag case fires its open event, emits nothing during `parse`,
and `finalize` surfaces the raw source text of the unterminated tag. -/
theorem parse_errors_nonfatal :
    (∀ (s : List Char), '<' ∉ s → processChars initState s = (initState, s, [])) ∧
    parse initState "a <foo> b" = (initState, "a <foo> b", []) ∧
    ((parse initState "<artifact id=\"a1\" title=\"t\">").2 =
        ("", [.artifactOpened "a1" "t"]) ∧
      String.mk (finalize (parse initState "<artifact id=\"a1\" title=\"t\">").1) =
        "<artifact id=\"a1\" title=\"t\">") := by
  exact ⟨processChars_passthrough, by decide, by decide, by decide⟩

/-- Witness for `parse_errors_nonfatal`: its universally quantified conjunct
applied at a concrete tag-free text. -/
theorem parse_errors_nonfatal_witness :
    processChars initState "xy".data = (initState, "xy".data, []) :=
  parse_errors_nonfatal.1 "xy".data (by decide)

/-- Operation the glue layer sends to the execution engine. -/
inductive GlueOp where
  | runAction (aid : String) (ordinal : Nat) (content : String)
  deriving Repr, DecidableEq

/-- Modelled from the spec and src/FLOW_DOCUMENTATION.md lines 334-353: the
glue layer (useMessageParser callbacks) invokes workbenchStore.runAction only
from the onActionClose callback, so the engine receives an action's payload
only through `actionClosed` events; the open callbacks register directives
and carry no final content. -/
def glueRunOps (evs : List Event) : List GlueOp :=
  evs.filterMap fun e =>
    match e with
    | .actionClosed aid ord content => some (.runAction aid ord content)
    | _ => none

/-- Payload characters (containing no tag-opening character) arriving inside
an action are appended to the action's content and produce no sanitized
output and no events. -/
theorem processChars_payload (payload : List Char) : ∀ (_ : '<' ∉ payload)
    (aid : String) (araw : List Char) (ord : Nat) (actRaw content : List Char) (n : Nat),
    processChars ⟨.inAction aid araw ord actRaw content, [], n⟩ payload =
      (⟨.inAction aid araw ord actRaw (content ++ payload), [], n⟩, [], []) := by
  induction payload with
  | nil => intro _ aid araw ord actRaw content n; simp [processChars]
  | cons c cs ih =>
    intro h aid araw ord actRaw content n
    have hc : ¬('<' = c ∨ '<' ∈ cs) := fun hmem => h (List.mem_cons.mpr hmem)
    push_neg at hc
    have hcne : (c == '<') = false := beq_eq_false_iff_ne.mpr (fun he => hc.1 he.symm)
    have hstep : step ⟨.inAction aid araw ord actRaw content, [], n⟩ c =
        (⟨.inAction aid araw ord actRaw (content ++ [c]), [], n⟩, [], []) := by
      simp [step, emptyPendingStep, hcne]
    simp [processChars, hstep, ih hc.2, List.append_assoc]

/-- Opening part of the canonical well-formed directive: one artifact, one
file action (spec section 6 wire format). -/
def preT : String := "<artifact id=\"a1\" title=\"T\"><action type=\"file\" filePath=\"f\">"

/-- Closing tags of the canonical well-formed directive. -/
def postT : String := "</action></artifact>"

/-- Raw text of the canonical artifact opening tag. -/
def artifactRawT : List Char := "<artifact id=\"a1\" title=\"T\">".data

/-- Raw text of the canonical action opening tag. -/
def actionRawT : List Char := "<action type=\"file\" filePath=\"f\">".data

/-- Consuming the opening tags of the canonical directive fires exactly the
two open events and leaves the parser inside the action with empty
content. -/
theorem processChars_preT :
    processChars initState preT.data =
      (⟨.inAction "a1" artifactRawT 0 actionRawT [], [], 1⟩, [],
       [.artifactOpened "a1" "T", .actionReady "a1" 0 "file" (some "f")]) := by
  decide

/-- Single-character evaluation steps of the action closing tag arriving
inside the canonical action, with the accumulated content abstract. -/
theorem stepA1 (content : List Char) (n : Nat) :
    step ⟨.inAction "a1" artifactRawT 0 actionRawT content, [], n⟩ '<' =
      (⟨.inAction "a1" artifactRawT 0 actionRawT content, ['<'], n⟩, [], []) := rfl

theorem stepA2 (content : List Char) (n : Nat) :
    step ⟨.inAction "a1" artifactRawT 0 actionRawT content, ['<'], n⟩ '/' =
      (⟨.inAction "a1" artifactRawT 0 actionRawT content, ['<', '/'], n⟩, [], []) := rfl

theorem stepA3 (content : List Char) (n : Nat) :
    step ⟨.inAction "a1" artifactRawT 0 actionRawT content, ['<', '/'], n⟩ 'a' =
      (⟨.inAction "a1" artifactRawT 0 actionRawT content, ['<', '/', 'a'], n⟩, [], []) := rfl

theorem stepA4 (content : List Char) (n : Nat) :
    step ⟨.inAction "a1" artifactRawT 0 actionRawT content, ['<', '/', 'a'], n⟩ 'c' =
      (⟨.inAction "a1" artifactRawT 0 actionRawT content, ['<', '/', 'a', 'c'], n⟩, [], []) := rfl

theorem stepA5 (content : List Char) (n : Nat) :
    step ⟨.inAction "a1" artifactRawT 0 actionRawT content, ['<', '/', 'a', 'c'], n⟩ 't' =
      (⟨.inAction "a1" artifactRawT 0 actionRawT content, ['<', '/', 'a', 'c', 't'], n⟩,
       [], []) := rfl

theorem stepA6 (content : List Char) (n : Nat) :
    step ⟨.inAction "a1" artifactRawT 0 actionRawT content, ['<', '/', 'a', 'c', 't'], n⟩ 'i' =
      (⟨.inAction "a1" artifactRawT 0 actionRawT content, ['<', '/', 'a', 'c', 't', 'i'], n⟩,
       [], []) := rfl

theorem stepA7 (content : List Char) (n : Nat) :
    step ⟨.inAction "a1" artifactRawT 0 actionRawT content,
        ['<', '/', 'a', 'c', 't', 'i'], n⟩ 'o' =
      (⟨.inAction "a1" artifactRawT 0 actionRawT content,
        ['<', '/', 'a', 'c', 't', 'i', 'o'], n⟩, [], []) := rfl

theorem stepA8 (content : List Char) (n : Nat) :
    step ⟨.inAction "a1" artifactRawT 0 actionRawT content,
        ['<', '/', 'a', 'c', 't', 'i', 'o'], n⟩ 'n' =
      (⟨.inAction "a1" artifactRawT 0 actionRawT content,
        ['<', '/', 'a', 'c', 't', 'i', 'o', 'n'], n⟩, [], []) := rfl

theorem stepA9 (content : List Char) (n : Nat) :
    step ⟨.inAction "a1" artifactRawT 0 actionRawT content,
        ['<', '/', 'a', 'c', 't', 'i', 'o', 'n'], n⟩ '>' =
      (⟨.inArtifact "a1" artifactRawT, [], n⟩, [],
       [.actionClosed "a1" 0 (String.mk content)]) := rfl

/-- Single-character evaluation steps of the artifact closing tag arriving
inside the canonical artifact. -/
theorem stepB1 (n : Nat) :
    step ⟨.inArtifact "a1" artifactRawT, [], n⟩ '<' =
      (⟨.inArtifact "a1" artifactRawT, ['<'], n⟩, [], []) := rfl

theorem stepB2 (n : Nat) :
    step ⟨.inArtifact "a1" artifactRawT, ['<'], n⟩ '/' =
      (⟨.inArtifact "a1" artifactRawT, ['<', '/'], n⟩, [], []) := rfl

theorem stepB3 (n : Nat) :
    step ⟨.inArtifact "a1" artifactRawT, ['<', '/'], n⟩ 'a' =
      (⟨.inArtifact "a1" artifactRawT, ['<', '/', 'a'], n⟩, [], []) := rfl

theorem stepB4 (n : Nat) :
    step ⟨.inArtifact "a1" artifactRawT, ['<', '/', 'a'], n⟩ 'r' =
      (⟨.inArtifact "a1" artifactRawT, ['<', '/', 'a', 'r'], n⟩, [], []) := rfl

theorem stepB5 (n : Nat) :
    step ⟨.inArtifact "a1" artifactRawT, ['<', '/', 'a', 'r'], n⟩ 't' =
      (⟨.inArtifact "a1" artifactRawT, ['<', '/', 'a', 'r', 't'], n⟩, [], []) := rfl

theorem stepB6 (n : Nat) :
    step ⟨.inArtifact "a1" artifactRawT, ['<', '/', 'a', 'r', 't'], n⟩ 'i' =
      (⟨.inArtifact "a1" artifactRawT, ['<', '/', 'a', 'r', 't', 'i'], n⟩, [], []) := rfl

theorem stepB7 (n : Nat) :
    step ⟨.inArtifact "a1" artifactRawT, ['<', '/', 'a', 'r', 't', 'i'], n⟩ 'f' =
      (⟨.inArtifact "a1" artifactRawT, ['<', '/', 'a', 'r', 't', 'i', 'f'], n⟩, [], []) := rfl

theorem stepB8 (n : Nat) :
    step ⟨.inArtifact "a1" artifactRawT, ['<', '/', 'a', 'r', 't', 'i', 'f'], n⟩ 'a' =
      (⟨.inArtifact "a1" artifactRawT, ['<', '/', 'a', 'r', 't', 'i', 'f', 'a'], n⟩,
       [], []) := rfl

theorem stepB9 (n : Nat) :
    step ⟨.inArtifact "a1" artifactRawT, ['<', '/', 'a', 'r', 't', 'i', 'f', 'a'], n⟩ 'c' =
      (⟨.inArtifact "a1" artifactRawT, ['<', '/', 'a', 'r', 't', 'i', 'f', 'a', 'c'], n⟩,
       [], []) := rfl

theorem stepB10 (n : Nat) :
    step ⟨.inArtifact "a1" artifactRawT,
        ['<', '/', 'a', 'r', 't', 'i', 'f', 'a', 'c'], n⟩ 't' =
      (⟨.inArtifact "a1" artifactRawT,
        ['<', '/', 'a', 'r', 't', 'i', 'f', 'a', 'c', 't'], n⟩, [], []) := rfl

theorem stepB11 (n : Nat) :
    step ⟨.inArtifact "a1" artifactRawT,
        ['<', '/', 'a', 'r', 't', 'i', 'f', 'a', 'c', 't'], n⟩ '>' =
      (⟨.outside, [], n⟩, [], [.artifactClosed "a1"]) := rfl

/-- Consuming the action closing tag from inside the canonical action fires
exactly the action-closed event carrying the accumulated content. -/
theorem processChars_actionCloseT (content : List Char) (n : Nat) :
    processChars ⟨.inAction "a1" artifactRawT 0 actionRawT content, [], n⟩ actionCloseTag =
      (⟨.inArtifact "a1" artifactRawT, [], n⟩, [],
       [.actionClosed "a1" 0 (String.mk content)]) := by
  have h : actionCloseTag = ['<', '/', 'a', 'c', 't', 'i', 'o', 'n', '>'] := by decide
  rw [h]
  simp only [processChars, stepA1, stepA2, stepA3, stepA4, stepA5, stepA6, stepA7, stepA8,
    stepA9, List.append_nil, List.nil_append]

/-- Consuming the artifact closing tag from inside the canonical artifact
fires exactly the artifact-closed event. -/
theorem processChars_artifactCloseT (n : Nat) :
    processChars ⟨.inArtifact "a1" artifactRawT, [], n⟩ artifactCloseTag =
      (⟨.outside, [], n⟩, [], [.artifactClosed "a1"]) := by
  have h : artifactCloseTag = ['<', '/', 'a', 'r', 't', 'i', 'f', 'a', 'c', 't', '>'] := by
    decide
  rw [h]
  simp only [processChars, stepB1, stepB2, stepB3, stepB4, stepB5, stepB6, stepB7, stepB8,
    stepB9, stepB10, stepB11, List.append_nil, List.nil_append]

/-- Consuming the closing tags from inside the canonical action fires the
action-closed event carrying exactly the accumulated content, then the
artifact-closed event. -/
theorem processChars_postT (content : List Char) (n : Nat) :
    processChars ⟨.inAction "a1" artifactRawT 0 actionRawT content, [], n⟩ postT.data =
      (⟨.outside, [], n⟩, [],
       [.actionClosed "a1" 0 (String.mk content), .artifactClosed "a1"]) := by
  have h : postT.data = actionCloseTag ++ artifactCloseTag := by decide
  rw [h, processChars_append, processChars_actionCloseT, processChars_artifactCloseT]
  rfl

/-- Consuming any strict prefix of the action closing tag from inside the
canonical action fires no events (the directive is not complete yet). -/
theorem processChars_closePrefixT (content : List Char) (n : Nat) :
    ∀ m, m < 9 →
      (processChars ⟨.inAction "a1" artifactRawT 0 actionRawT content, [], n⟩
        (postT.data.take m)).2.2 = [] := by
  intro m hm
  interval_cases m
  · rfl
  · rw [show postT.data.take 1 = ['<'] from by decide]
    simp only [processChars, stepA1, List.append_nil, List.nil_append]
  · rw [show postT.data.take 2 = ['<', '/'] from by decide]
    simp only [processChars, stepA1, stepA2, List.append_nil, List.nil_append]
  · rw [show postT.data.take 3 = ['<', '/', 'a'] from by decide]
    simp only [processChars, stepA1, stepA2, stepA3, List.append_nil, List.nil_append]
  · rw [show postT.data.take 4 = ['<', '/', 'a', 'c'] from by decide]
    simp only [processChars, stepA1, stepA2, stepA3, stepA4, List.append_nil, List.nil_append]
  · rw [show postT.data.take 5 = ['<', '/', 'a', 'c', 't'] from by decide]
    simp only [processChars, stepA1, stepA2, stepA3, stepA4, stepA5, List.append_nil,
      List.nil_append]
  · rw [show postT.data.take 6 = ['<', '/', 'a', 'c', 't', 'i'] from by decide]
    simp only [processChars, stepA1, stepA2, stepA3, stepA4, stepA5, stepA6, List.append_nil,
      List.nil_append]
  · rw [show postT.data.take 7 = ['<', '/', 'a', 'c', 't', 'i', 'o'] from by decide]
    simp only [processChars, stepA1, stepA2, stepA3, stepA4, stepA5, stepA6, stepA7,
      List.append_nil, List.nil_append]
  · rw [show postT.data.take 8 = ['<', '/', 'a', 'c', 't', 'i', 'o', 'n'] from by decide]
    simp only [processChars, stepA1, stepA2, stepA3, stepA4, stepA5, stepA6, stepA7, stepA8,
      List.append_nil, List.nil_append]

/-- C4: no partial-content exposure.  For the canonical directive around an
arbitrary payload (no tag-opening character) the engine is invoked only at
the action's closing tag: while only a prefix of the payload has arrived
(any k), or while the closing tag itself is still incomplete (any m < 9,
the tag's length), the events emitted so far trigger no runAction glue
operation; once the closing tag is parsed, exactly one runAction is
triggered and it carries the complete payload. -/
theorem no_partial_content_exposure :
    ∀ (payload : List Char), '<' ∉ payload →
      (∀ k : Nat,
        glueRunOps (processChars initState (preT.data ++ payload.take k)).2.2 = []) ∧
      (∀ m : Nat, m < 9 →
        glueRunOps
          (processChars initState (preT.data ++ payload ++ postT.data.take m)).2.2 = []) ∧
      ((processChars initState (preT.data ++ payload ++ postT.data)).2.2 =
          [.artifactOpened "a1" "T", .actionReady "a1" 0 "file" (some "f"),
           .actionClosed "a1" 0 (String.mk payload), .artifactClosed "a1"] ∧
        glueRunOps (processChars initState (preT.data ++ payload ++ postT.data)).2.2 =
          [.runAction "a1" 0 (String.mk payload)]) := by
  intro payload h
  refine ⟨?_, ?_, ?_, ?_⟩
  · intro k
    have hk : '<' ∉ payload.take k := fun hmem => h (List.take_subset k payload hmem)
    rw [processChars_append, processChars_preT,
      processChars_payload (payload.take k) hk]
    rfl
  · intro m hm
    rw [processChars_append (preT.data ++ payload), processChars_append,
      processChars_preT, processChars_payload payload h]
    simp [glueRunOps, processChars_closePrefixT _ _ m hm]
  · rw [processChars_append (preT.data ++ payload), processChars_append,
      processChars_preT, processChars_payload payload h, processChars_postT]
    rfl
  · rw [processChars_append (preT.data ++ payload), processChars_append,
      processChars_preT, processChars_payload payload h, processChars_postT]
    rfl

/-- Witness for `no_partial_content_exposure`: applied to the concrete
payload "hi"; before the closing tag no runAction is triggered, afterwards
exactly one with the full payload. -/
theorem no_partial_content_exposure_witness :
    glueRunOps (processChars initState (preT.data ++ "hi".data.take 1)).2.2 = [] ∧
    glueRunOps (processChars initState (preT.data ++ "hi".data ++ postT.data)).2.2 =
      [.runAction "a1" 0 "hi"] := by
  refine ⟨(no_partial_content_exposure "hi".data (by decide)).1 1, ?_⟩
  exact (no_partial_content_exposure "hi".data (by decide)).2.2.2

/-! Part 2: the action execution engine. -/

/-- Per-action execution status (ActionStatus, src/FLOW_DOCUMENTATION.md line
465). -/
inductive ActionStatus where
  | pending
  | running
  | complete
  | aborted
  | failed
  deriving Repr, DecidableEq

/-- Modelled from the spec: the two executable action kinds (spec section 3;
the runner source app/lib/runtime/action-runner.ts is not in the provided
sources). -/
inductive BoltAction where
  | file (filePath : String) (content : String)
  | shell (content : String)
  deriving Repr, DecidableEq

instance : Inhabited BoltAction := ⟨.shell ""⟩

/-- Outcome of the external runtime's filesystem calls for one file action. -/
structure FileResult where
  mkdirFails : Bool
  writeFails : Bool
  deriving Repr, DecidableEq

/-- Outcome of the external runtime's process for one shell action: an exit
code, or a kill through the action's abort signal firing mid-run. -/
inductive ShellResult where
  | exit (code : Nat)
  | killed
  deriving Repr, DecidableEq

/-- Behaviour of the external runtime (WebContainer) during a run, one
outcome per action index; the engine is deterministic given this
environment. -/
structure RuntimeEnv where
  fileRes : Nat → FileResult
  shellRes : Nat → ShellResult

/-- Calls the engine makes into the external runtime, plus the bookkeeping
steps of a shell action (attaching the abort listener, piping the output to
the external sink). -/
inductive RuntimeCall where
  | mkdir (path : String) (recursive : Bool)
  | writeFile (path : String) (content : String)
  | spawn (cmd : String)
  | addAbortListener
  | pipeOutput
  | awaitExit (code : Nat)
  | kill
  deriving Repr, DecidableEq

/-- Directory part of a relative path, as nodePath.dirname computes it for
the workdir-relative file paths used here: everything before the last
separator, or "." when there is no separator.  Used by
ActionRunner.#runFileAction (src/FLOW_DOCUMENTATION.md line 498). -/
def dirname (p : String) : String :=
  let cs := p.data
  if '/' ∈ cs then String.mk (cs.take (cs.length - cs.reverse.indexOf '/' - 1))
  else "."

/-- Modelled from the spec and ActionRunner.#runFileAction
(src/FLOW_DOCUMENTATION.md lines 494-507): create the parent directory
recursively unless it is ".", then write the content; a failing filesystem
call throws, is caught by the chain, and the action is marked failed (spec
sections 4.2 and 7). -/
def fileCalls (filePath content : String) (r : FileResult) :
    List RuntimeCall × ActionStatus :=
  let folder := dirname filePath
  if folder = "." then
    if r.writeFails then ([.writeFile filePath content], .failed)
    else ([.writeFile filePath content], .complete)
  else if r.mkdirFails then ([.mkdir folder true], .failed)
  else if r.writeFails then ([.mkdir folder true, .writeFile filePath content], .failed)
  else ([.mkdir folder true, .writeFile filePath content], .complete)

/-- Modelled from the spec and ActionRunner.#runShellAction
(src/FLOW_DOCUMENTATION.md lines 513-540): spawn the command through the
runtime's process primitive, attach the abort listener, pipe the process
output to the external sink, await the exit code; a non-zero exit code marks
the action failed (spec section 4.2, src/FLOW_DOCUMENTATION.md lines
1146-1153); a fired abort signal kills the process and the action ends
aborted. -/
def shellCalls (cmd : String) (r : ShellResult) : List RuntimeCall × ActionStatus :=
  match r with
  | .exit code =>
      ([.spawn cmd, .addAbortListener, .pipeOutput, .awaitExit code],
       if code = 0 then .complete else .failed)
  | .killed => ([.spawn cmd, .addAbortListener, .pipeOutput, .kill], .aborted)

/-- Runtime calls and final status of one action run against the
environment. -/
def execCalls (a : BoltAction) (idx : Nat) (env : RuntimeEnv) :
    List RuntimeCall × ActionStatus :=
  match a with
  | .file fp content => fileCalls fp content (env.fileRes idx)
  | .shell cmd => shellCalls cmd (env.shellRes idx)

/-- Entry of the engine's execution trace: a status transition or a runtime
call, tagged with the index of the action it belongs to. -/
inductive EngineEv where
  | status (idx : Nat) (s : ActionStatus)
  | call (idx : Nat) (c : RuntimeCall)
  deriving Repr, DecidableEq

/-- Index of the action a trace entry belongs to. -/
def EngineEv.idx : EngineEv → Nat
  | .status i _ => i
  | .call i _ => i

/-- Trace block of one action run: the running transition, the runtime
calls, the terminal transition (ActionRunner.#executeAction; modelled from
the spec: an execution failure is caught inside the chain and recorded on
the action, never propagated). -/
def actionBlock (idx : Nat) (a : BoltAction) (env : RuntimeEnv) : List EngineEv :=
  .status idx .running ::
    ((execCalls a idx env).1.map (.call idx ·) ++ [.status idx (execCalls a idx env).2])

/-- Modelled from the spec: the per-artifact continuation chain
(ActionRunner.runAction, src/FLOW_DOCUMENTATION.md lines 968-978) starts
each enqueued action only after the previous one reached a terminal status,
so one artifact's trace is the concatenation of the per-action blocks in
enqueue order. -/
def engineBlocks (acts : List BoltAction) (env : RuntimeEnv) : List (List EngineEv) :=
  (List.range acts.length).map (fun i => actionBlock i (acts.getD i default) env)

/-- Full execution trace of one artifact's action queue. -/
def runTrace (acts : List BoltAction) (env : RuntimeEnv) : List EngineEv :=
  (engineBlocks acts env).join

/-- Terminal status each action ends with. -/
def terminalStatusAt (acts : List BoltAction) (env : RuntimeEnv) (i : Nat) : ActionStatus :=
  (execCalls (acts.getD i default) i env).2

/-- Combined length of the first `m` blocks; the trace position at which
block `m` starts. -/
def sumLen (ls : List (List α)) (m : Nat) : Nat := ((ls.take m).map List.length).sum

/-- Trace position at which action `j` begins. -/
def startPos (acts : List BoltAction) (env : RuntimeEnv) (j : Nat) : Nat :=
  sumLen (engineBlocks acts env) j

theorem sumLen_cons_succ (l : List α) (ls : List (List α)) (m : Nat) :
    sumLen (l :: ls) (m + 1) = l.length + sumLen ls m := by
  simp [sumLen, List.take_succ_cons]

theorem sumLen_succ_of_get? (ls : List (List α)) (m : Nat) (bl : List α)
    (h : ls.get? m = some bl) : sumLen ls (m + 1) = sumLen ls m + bl.length := by
  have h' : ls[m]? = some bl := by rw [← List.get?_eq_getElem?]; exact h
  simp [sumLen, List.take_succ, h']

theorem sumLen_mono (ls : List (List α)) {a b : Nat} (hab : a ≤ b) :
    sumLen ls a ≤ sumLen ls b := by
  induction hab with
  | refl => exact le_rfl
  | step _ ih =>
    refine le_trans ih ?_
    simp only [sumLen, List.take_succ, List.map_append, List.sum_append]
    exact Nat.le_add_right _ _

theorem join_get?_sumLen : ∀ (ls : List (List α)) (m : Nat) (bl : List α),
    ls.get? m = some bl → ∀ p, p < bl.length →
      ls.join.get? (sumLen ls m + p) = bl.get? p := by
  intro ls
  induction ls with
  | nil => intro m bl h; simp at h
  | cons l ls ih =>
    intro m bl h p hp
    cases m with
    | zero =>
      simp only [List.get?_cons_zero, Option.some.injEq] at h
      subst h
      show (l ++ ls.join).get? (sumLen (l :: ls) 0 + p) = l.get? p
      have h0 : sumLen (l :: ls) 0 + p = p := by simp [sumLen]
      rw [h0]
      exact List.get?_append hp
    | succ m =>
      have h' : ls.get? m = some bl := by simpa using h
      show (l ++ ls.join).get? (sumLen (l :: ls) (m + 1) + p) = bl.get? p
      rw [sumLen_cons_succ]
      have hle : l.length ≤ l.length + sumLen ls m + p := by omega
      rw [List.get?_append_right hle]
      have harith : l.length + sumLen ls m + p - l.length = sumLen ls m + p := by omega
      rw [harith]
      exact ih m bl h' p hp

theorem join_get?_lt_sumLen : ∀ (ls : List (List α)) (m r : Nat), r < sumLen ls m →
    ∃ k bl q, k < m ∧ ls.get? k = some bl ∧ q < bl.length ∧
      ls.join.get? r = bl.get? q := by
  intro ls
  induction ls with
  | nil =>
    intro m r h
    exfalso
    simp [sumLen] at h
  | cons l ls ih =>
    intro m r h
    cases m with
    | zero => simp [sumLen] at h
    | succ m =>
      rw [sumLen_cons_succ] at h
      by_cases hr : r < l.length
      · exact ⟨0, l, r, Nat.succ_pos _, by simp, hr,
          by simpa using @List.get?_append _ l ls.join r hr⟩
      · push_neg at hr
        have h2 : r - l.length < sumLen ls m := by omega
        obtain ⟨k, bl, q, hk, hbl, hq, hget⟩ := ih m (r - l.length) h2
        refine ⟨k + 1, bl, q, by omega, by simpa using hbl, hq, ?_⟩
        show (l ++ ls.join).get? r = bl.get? q
        rw [List.get?_append_right hr, hget]

theorem actionBlock_eq (i : Nat) (a : BoltAction) (env : RuntimeEnv) :
    actionBlock i a env =
      (.status i .running :: (execCalls a i env).1.map (.call i ·)) ++
        [.status i (execCalls a i env).2] := by
  simp [actionBlock]

theorem actionBlock_length_pos (i : Nat) (a : BoltAction) (env : RuntimeEnv) :
    0 < (actionBlock i a env).length := by
  simp [actionBlock]

theorem actionBlock_get?_zero (i : Nat) (a : BoltAction) (env : RuntimeEnv) :
    (actionBlock i a env).get? 0 = some (.status i .running) := rfl

theorem get?_last_concat (l : List α) (x : α) :
    (l ++ [x]).get? ((l ++ [x]).length - 1) = some x := by
  have h : (l ++ [x]).length - 1 = l.length := by simp
  rw [h]
  exact List.get?_concat_length l x

theorem actionBlock_get?_last (i : Nat) (a : BoltAction) (env : RuntimeEnv) :
    (actionBlock i a env).get? ((actionBlock i a env).length - 1) =
      some (.status i (execCalls a i env).2) := by
  rw [actionBlock_eq]
  exact get?_last_concat _ _

theorem mem_actionBlock_idx (i : Nat) (a : BoltAction) (env : RuntimeEnv) :
    ∀ e ∈ actionBlock i a env, e.idx = i := by
  intro e he
  rw [actionBlock_eq] at he
  rcases List.mem_append.mp he with h1 | h2
  · rcases List.mem_cons.mp h1 with h | h
    · subst h; rfl
    · obtain ⟨c, _, hc⟩ := List.mem_map.mp h
      subst hc
      rfl
  · have h := List.mem_singleton.mp h2
    subst h
    rfl

theorem engineBlocks_length (acts : List BoltAction) (env : RuntimeEnv) :
    (engineBlocks acts env).length = acts.length := by
  simp [engineBlocks]

theorem engineBlocks_get? (acts : List BoltAction) (env : RuntimeEnv) (j : Nat)
    (hj : j < acts.length) :
    (engineBlocks acts env).get? j = some (actionBlock j (acts.getD j default) env) := by
  simp only [engineBlocks, List.get?_map]
  rw [List.get?_range hj]
  rfl

/-- Every action's block starts with its running transition at its start
position. -/
theorem runTrace_running (acts : List BoltAction) (env : RuntimeEnv) (j : Nat)
    (hj : j < acts.length) :
    (runTrace acts env).get? (startPos acts env j) = some (.status j .running) := by
  have h := join_get?_sumLen (engineBlocks acts env) j _ (engineBlocks_get? acts env j hj)
    0 (actionBlock_length_pos j (acts.getD j default) env)
  rw [Nat.add_zero] at h
  rw [runTrace, startPos, h]
  exact actionBlock_get?_zero _ _ _

/-- Every action's block ends with its terminal transition. -/
theorem runTrace_terminal (acts : List BoltAction) (env : RuntimeEnv) (i : Nat)
    (hi : i < acts.length) :
    (runTrace acts env).get?
        (startPos acts env i + ((actionBlock i (acts.getD i default) env).length - 1)) =
      some (.status i (terminalStatusAt acts env i)) := by
  have h := join_get?_sumLen (engineBlocks acts env) i _ (engineBlocks_get? acts env i hi)
    ((actionBlock i (acts.getD i default) env).length - 1)
    (by have := actionBlock_length_pos i (acts.getD i default) env; omega)
  rw [runTrace, startPos, h]
  exact actionBlock_get?_last _ _ _

/-- No trace entry of action `j` occurs before action `j`'s start
position. -/
theorem runTrace_first (acts : List BoltAction) (env : RuntimeEnv) (j : Nat) :
    ∀ r e, (runTrace acts env).get? r = some e → e.idx = j →
      startPos acts env j ≤ r := by
  intro r e hget hidx
  by_contra hlt
  push_neg at hlt
  obtain ⟨k, bl, q, hk, hbl, _, hg⟩ := join_get?_lt_sumLen (engineBlocks acts env) j r hlt
  have hk2 : k < acts.length := by
    by_contra hge
    push_neg at hge
    rw [List.get?_eq_none.mpr (by rw [engineBlocks_length]; exact hge)] at hbl
    exact Option.noConfusion hbl
  rw [engineBlocks_get? acts env k hk2] at hbl
  have hbl' : bl = actionBlock k (acts.getD k default) env := by
    exact (Option.some.injEq _ _).mp hbl.symm
  subst hbl'
  rw [runTrace] at hget
  rw [hget] at hg
  have hmem : e ∈ actionBlock k (acts.getD k default) env := List.get?_mem hg.symm
  have : e.idx = k := mem_actionBlock_idx _ _ _ e hmem
  omega

/-- Terminal statuses are exactly complete, failed or aborted. -/
theorem execCalls_terminal (a : BoltAction) (idx : Nat) (env : RuntimeEnv) :
    (execCalls a idx env).2 ∈ [ActionStatus.complete, .failed, .aborted] := by
  cases a with
  | file fp c =>
    simp only [execCalls, fileCalls]
    split_ifs <;> simp
  | shell cmd =>
    cases h : env.shellRes idx with
    | exit code =>
      simp only [execCalls, shellCalls, h]
      split_ifs <;> simp
    | killed => simp [execCalls, shellCalls, h]

/-- Trace position of action `i`'s terminal status transition. -/
def endPos (acts : List BoltAction) (env : RuntimeEnv) (i : Nat) : Nat :=
  startPos acts env i + ((actionBlock i (acts.getD i default) env).length - 1)

theorem getD_of_get? (l : List α) (n : Nat) (a d : α) (h : l.get? n = some a) :
    l.getD n d = a := by
  rw [List.getD_eq_getElem?_getD, ← List.get?_eq_getElem?, h]
  rfl

/-- C2: strict intra-artifact sequencing.  For every action queue, every
environment and every two actions enqueued in order `i` then `j`, action `i`
reaches a terminal status (complete, failed or aborted) at its trace
position `endPos i`, action `j`'s running transition is the first trace
entry belonging to `j`, and it lies strictly after `endPos i`; consequently
the running spans of two distinct actions never overlap (at most one action
is running at any time). -/
theorem action_strict_sequencing (acts : List BoltAction) (env : RuntimeEnv)
    (i j : Nat) (hij : i < j) (hj : j < acts.length) :
    terminalStatusAt acts env i ∈ [ActionStatus.complete, .failed, .aborted] ∧
    (runTrace acts env).get? (endPos acts env i) =
      some (.status i (terminalStatusAt acts env i)) ∧
    (runTrace acts env).get? (startPos acts env j) = some (.status j .running) ∧
    endPos acts env i < startPos acts env j ∧
    (∀ r e, (runTrace acts env).get? r = some e → e.idx = j →
      startPos acts env j ≤ r) ∧
    (∀ t : Nat, ¬(startPos acts env i ≤ t ∧ t < endPos acts env i ∧
        startPos acts env j ≤ t ∧ t < endPos acts env j)) := by
  have hi : i < acts.length := lt_trans hij hj
  have h1 : sumLen (engineBlocks acts env) (i + 1) =
      sumLen (engineBlocks acts env) i +
        (actionBlock i (acts.getD i default) env).length :=
    sumLen_succ_of_get? _ _ _ (engineBlocks_get? acts env i hi)
  have h2 : sumLen (engineBlocks acts env) (i + 1) ≤ sumLen (engineBlocks acts env) j :=
    sumLen_mono _ hij
  have h3 := actionBlock_length_pos i (acts.getD i default) env
  have hlt : endPos acts env i < startPos acts env j := by
    simp only [endPos, startPos]
    omega
  refine ⟨execCalls_terminal _ _ _, runTrace_terminal acts env i hi,
    runTrace_running acts env j hj, hlt, runTrace_first acts env j, ?_⟩
  intro t
  omega

/-- Sample action queue used by witnesses: a file write then a shell
command. -/
def sampleActs : List BoltAction := [.file "src/app.js" "x", .shell "npm install"]

/-- Environment in which every runtime call succeeds. -/
def envAllOk : RuntimeEnv := ⟨fun _ => ⟨false, false⟩, fun _ => .exit 0⟩

/-- Witness for `action_strict_sequencing` at the sample queue. -/
theorem action_strict_sequencing_witness :
    terminalStatusAt sampleActs envAllOk 0 ∈ [ActionStatus.complete, .failed, .aborted] ∧
    (runTrace sampleActs envAllOk).get? (endPos sampleActs envAllOk 0) =
      some (.status 0 (terminalStatusAt sampleActs envAllOk 0)) ∧
    (runTrace sampleActs envAllOk).get? (startPos sampleActs envAllOk 1) =
      some (.status 1 .running) ∧
    endPos sampleActs envAllOk 0 < startPos sampleActs envAllOk 1 ∧
    (∀ r e, (runTrace sampleActs envAllOk).get? r = some e → e.idx = 1 →
      startPos sampleActs envAllOk 1 ≤ r) ∧
    (∀ t : Nat, ¬(startPos sampleActs envAllOk 0 ≤ t ∧
        t < endPos sampleActs envAllOk 0 ∧
        startPos sampleActs envAllOk 1 ≤ t ∧ t < endPos sampleActs envAllOk 1)) :=
  action_strict_sequencing sampleActs envAllOk 0 1 (by decide) (by decide)

/-- Proposition: an execution-time error occurs while running the action — a
filesystem error on a file action (the attempted mkdir fails, or the write
fails when reached), or a non-zero exit code on a shell action. -/
def execFails (a : BoltAction) (idx : Nat) (env : RuntimeEnv) : Prop :=
  match a with
  | .file fp _ =>
      (dirname fp ≠ "." ∧ (env.fileRes idx).mkdirFails = true) ∨
      ((dirname fp = "." ∨ (env.fileRes idx).mkdirFails = false) ∧
        (env.fileRes idx).writeFails = true)
  | .shell _ => ∃ code, env.shellRes idx = .exit code ∧ code ≠ 0

/-- An execution-time error makes the action end with status failed. -/
theorem execFails_failed (a : BoltAction) (idx : Nat) (env : RuntimeEnv)
    (h : execFails a idx env) : (execCalls a idx env).2 = .failed := by
  cases a with
  | file fp c =>
    simp only [execFails] at h
    simp only [execCalls, fileCalls]
    split_ifs with h1 h2 h3 <;> simp_all
  | shell cmd =>
    obtain ⟨code, hres, hcode⟩ := h
    simp [execCalls, shellCalls, hres, hcode]

/-- C3: failure does not halt the queue.  If action `i` fails (filesystem
error on a file action, non-zero exit code on a shell action), its status
becomes failed, yet every action of the queue — including every subsequently
enqueued one — still begins execution (its running transition is in the
trace) and still reaches its own terminal status; no execution-time error
propagates out of the chain (the trace is a total function of the queue and
environment). -/
theorem failure_does_not_halt_queue (acts : List BoltAction) (env : RuntimeEnv)
    (i : Nat) (a : BoltAction) (ha : acts.get? i = some a)
    (hfail : execFails a i env) :
    terminalStatusAt acts env i = .failed ∧
    ∀ j, j < acts.length →
      (runTrace acts env).get? (startPos acts env j) = some (.status j .running) ∧
      (runTrace acts env).get? (endPos acts env j) =
        some (.status j (terminalStatusAt acts env j)) := by
  constructor
  · rw [terminalStatusAt, getD_of_get? acts i a default ha]
    exact execFails_failed a i env hfail
  · intro j hj
    exact ⟨runTrace_running acts env j hj, runTrace_terminal acts env j hj⟩

/-- Environment in which every file write fails (e.g. an invalid path). -/
def envWriteFails : RuntimeEnv := ⟨fun _ => ⟨false, true⟩, fun _ => .exit 0⟩

/-- Witness for `failure_does_not_halt_queue`: the first action's write
fails, the second still reaches running. -/
theorem failure_does_not_halt_queue_witness :
    terminalStatusAt sampleActs envWriteFails 0 = .failed ∧
    ∀ j, j < sampleActs.length →
      (runTrace sampleActs envWriteFails).get? (startPos sampleActs envWriteFails j) =
        some (.status j .running) ∧
      (runTrace sampleActs envWriteFails).get? (endPos sampleActs envWriteFails j) =
        some (.status j (terminalStatusAt sampleActs envWriteFails j)) :=
  failure_does_not_halt_queue sampleActs envWriteFails 0 (.file "src/app.js" "x")
    (by decide) (Or.inr ⟨Or.inr rfl, rfl⟩)

/-- C5: shell action execution contract.  Executing a shell action spawns
the command through the runtime's process primitive, attaches the abort
listener, pipes the process output to the external sink and awaits the exit
code, in that order; a fired cancellation token instead kills the process
and the action ends aborted; a non-zero exit code marks the action failed
and the chain still proceeds: every queued action reaches running. -/
theorem shell_action_contract :
    (∀ (cmd : String) (idx : Nat) (env : RuntimeEnv) (code : Nat),
        env.shellRes idx = .exit code →
        actionBlock idx (.shell cmd) env =
          [.status idx .running, .call idx (.spawn cmd), .call idx .addAbortListener,
           .call idx .pipeOutput, .call idx (.awaitExit code),
           .status idx (if code = 0 then .complete else .failed)]) ∧
    (∀ (cmd : String) (idx : Nat) (env : RuntimeEnv),
        env.shellRes idx = .killed →
        actionBlock idx (.shell cmd) env =
          [.status idx .running, .call idx (.spawn cmd), .call idx .addAbortListener,
           .call idx .pipeOutput, .call idx .kill, .status idx .aborted]) ∧
    (∀ (acts : List BoltAction) (env : RuntimeEnv) (i : Nat) (cmd : String) (code : Nat),
        acts.get? i = some (.shell cmd) → env.shellRes i = .exit code → code ≠ 0 →
        terminalStatusAt acts env i = .failed ∧
        ∀ j, j < acts.length →
          (runTrace acts env).get? (startPos acts env j) =
            some (.status j .running)) := by
  refine ⟨?_, ?_, ?_⟩
  · intro cmd idx env code h
    simp [actionBlock, execCalls, shellCalls, h]
  · intro cmd idx env h
    simp [actionBlock, execCalls, shellCalls, h]
  · intro acts env i cmd code ha hres hcode
    constructor
    · rw [terminalStatusAt, getD_of_get? acts i _ default ha]
      simp [execCalls, shellCalls, hres, hcode]
    · intro j hj
      exact runTrace_running acts env j hj

/-- Environment in which every shell command exits with code 1. -/
def envExit1 : RuntimeEnv := ⟨fun _ => ⟨false, false⟩, fun _ => .exit 1⟩

/-- Witness for `shell_action_contract`: a failing npm install still lets
the next action reach running. -/
theorem shell_action_contract_witness :
    actionBlock 0 (.shell "npm install") envExit1 =
      [.status 0 .running, .call 0 (.spawn "npm install"), .call 0 .addAbortListener,
       .call 0 .pipeOutput, .call 0 (.awaitExit 1),
       .status 0 (if (1 : Nat) = 0 then ActionStatus.complete else .failed)] ∧
    (terminalStatusAt [.shell "npm install", .shell "echo ok"] envExit1 0 = .failed ∧
      ∀ j, j < ([BoltAction.shell "npm install", .shell "echo ok"]).length →
        (runTrace [.shell "npm install", .shell "echo ok"] envExit1).get?
            (startPos [.shell "npm install", .shell "echo ok"] envExit1 j) =
          some (.status j .running)) :=
  ⟨shell_action_contract.1 "npm install" 0 envExit1 1 rfl,
   shell_action_contract.2.2 [.shell "npm install", .shell "echo ok"] envExit1 0
     "npm install" 1 rfl rfl (by decide)⟩

theorem get?_singleton_cases {a x : α} {n : Nat} (h : [a].get? n = some x) :
    n = 0 ∧ x = a := by
  cases n with
  | zero => exact ⟨rfl, by simpa using h.symm⟩
  | succ n => simp at h

theorem get?_pair_cases {a b x : α} {n : Nat} (h : [a, b].get? n = some x) :
    (n = 0 ∧ x = a) ∨ (n = 1 ∧ x = b) := by
  cases n with
  | zero => exact Or.inl ⟨rfl, by simpa using h.symm⟩
  | succ n =>
    cases n with
    | zero => exact Or.inr ⟨rfl, by simpa using h.symm⟩
    | succ n => simp at h

/-- C6, counterexample to the claim as stated: for a file action whose path
has no directory part (dirname "x.txt" = "."), the engine issues no
directory-creation call at all — only the write — so "first ensures the
parent directory exists by calling the recursive directory-creation
primitive, and then writes" fails at this input. -/
theorem file_action_no_mkdir_at_root :
    (fileCalls "x.txt" "hi" ⟨false, false⟩).1 = [.writeFile "x.txt" "hi"] ∧
    ∀ (folder : String) (rcsv : Bool),
      RuntimeCall.mkdir folder rcsv ∉ (fileCalls "x.txt" "hi" ⟨false, false⟩).1 := by
  have h : (fileCalls "x.txt" "hi" ⟨false, false⟩).1 = [.writeFile "x.txt" "hi"] := by
    decide
  refine ⟨h, ?_⟩
  intro folder rcsv hmem
  rw [h] at hmem
  exact RuntimeCall.noConfusion (List.mem_singleton.mp hmem)

/-- C6 as amended: executing a file action issues the recursive
directory-creation call exactly when dirname(filePath) is not "."; when
issued, the mkdir precedes the write; the write call never precedes a
directory-creation call; and with no filesystem errors the action completes
after its write. -/
theorem file_action_contract (fp content : String) (r : FileResult) :
    (dirname fp = "." → (fileCalls fp content r).1 = [.writeFile fp content]) ∧
    (dirname fp ≠ "." →
      (fileCalls fp content r).1 =
        .mkdir (dirname fp) true ::
          (if r.mkdirFails then [] else [.writeFile fp content])) ∧
    (∀ p q (folder : String) (rcsv : Bool),
        (fileCalls fp content r).1.get? p = some (.writeFile fp content) →
        (fileCalls fp content r).1.get? q = some (.mkdir folder rcsv) → q < p) ∧
    (r.mkdirFails = false → r.writeFails = false →
      (fileCalls fp content r).2 = .complete) := by
  refine ⟨?_, ?_, ?_, ?_⟩
  · intro h
    simp only [fileCalls]
    rw [if_pos h]
    split_ifs <;> rfl
  · intro h
    simp only [fileCalls]
    rw [if_neg h]
    split_ifs <;> rfl
  · intro p q folder rcsv hp hq
    simp only [fileCalls] at hp hq
    split_ifs at hp hq with h1 h2 h3
    · exact RuntimeCall.noConfusion (get?_singleton_cases hq).2
    · exact RuntimeCall.noConfusion (get?_singleton_cases hq).2
    · exact RuntimeCall.noConfusion (get?_singleton_cases hp).2
    · rcases get?_pair_cases hp with ⟨_, he⟩ | ⟨hp1, _⟩
      · exact RuntimeCall.noConfusion he
      · rcases get?_pair_cases hq with ⟨hq0, _⟩ | ⟨_, he2⟩
        · omega
        · exact RuntimeCall.noConfusion he2
    · rcases get?_pair_cases hp with ⟨_, he⟩ | ⟨hp1, _⟩
      · exact RuntimeCall.noConfusion he
      · rcases get?_pair_cases hq with ⟨hq0, _⟩ | ⟨_, he2⟩
        · omega
        · exact RuntimeCall.noConfusion he2
  · intro hm hw
    simp only [fileCalls, hm, hw, Bool.false_eq_true, if_false]
    split_ifs <;> rfl

/-- Witness for `file_action_contract` at a path with a directory part. -/
theorem file_action_contract_witness :
    (fileCalls "src/app.js" "x" ⟨false, false⟩).1 =
      .mkdir (dirname "src/app.js") true ::
        (if (⟨false, false⟩ : FileResult).mkdirFails then []
         else [.writeFile "src/app.js" "x"]) ∧
    (fileCalls "src/app.js" "x" ⟨false, false⟩).2 = .complete :=
  ⟨(file_action_contract "src/app.js" "x" ⟨false, false⟩).2.1 (by decide),
   (file_action_contract "src/app.js" "x" ⟨false, false⟩).2.2.2 rfl rfl⟩

/-- Modelled from the spec: the events that drive one action's status — the
chain starting it, its execution succeeding or failing, and an external
cancellation request observed through the action's token (spec section 4.2
state machine). -/
inductive StatusEvent where
  | begin
  | succeed
  | fail
  | cancel
  deriving Repr, DecidableEq

/-- Modelled from the spec: the per-action status transition function
(spec section 4.2: pending -> running -> complete | failed | aborted;
aborted only from running via cancellation; terminal statuses absorbing;
cancellation of a not-running action changes nothing). -/
def stepStatus (s : ActionStatus) (e : StatusEvent) : ActionStatus :=
  match s, e with
  | .pending, .begin => .running
  | .running, .succeed => .complete
  | .running, .fail => .failed
  | .running, .cancel => .aborted
  | s, _ => s

/-- C8: the action status state machine.  A step yields aborted only from
running and only on a cancellation event (or the status was already
aborted); once complete, cancellation is a no-op; every step either leaves
the status unchanged or follows pending -> running -> terminal; aborted and
failed are distinct statuses; and every engine trace block realizes the
machine: running first, runtime calls between, one terminal status last. -/
theorem action_status_state_machine :
    (∀ (s : ActionStatus) (e : StatusEvent),
        stepStatus s e = .aborted → s = .aborted ∨ (s = .running ∧ e = .cancel)) ∧
    stepStatus .complete .cancel = .complete ∧
    (∀ (s : ActionStatus) (e : StatusEvent),
        stepStatus s e = s ∨
        (s = .pending ∧ e = .begin ∧ stepStatus s e = .running) ∨
        (s = .running ∧ stepStatus s e ∈ [ActionStatus.complete, .failed, .aborted])) ∧
    ActionStatus.aborted ≠ ActionStatus.failed ∧
    (∀ (idx : Nat) (a : BoltAction) (env : RuntimeEnv),
        ∃ t calls,
          actionBlock idx a env = .status idx .running :: (calls ++ [.status idx t]) ∧
          t ∈ [ActionStatus.complete, .failed, .aborted] ∧
          ∀ e ∈ calls, ∃ rc, e = .call idx rc) := by
  refine ⟨?_, rfl, ?_, by decide, ?_⟩
  · intro s e
    cases s <;> cases e <;> decide
  · intro s e
    cases s <;> cases e <;> decide
  · intro idx a env
    refine ⟨(execCalls a idx env).2, (execCalls a idx env).1.map (.call idx ·), rfl,
      execCalls_terminal a idx env, ?_⟩
    intro e he
    obtain ⟨c, _, hc⟩ := List.mem_map.mp he
    exact ⟨c, hc.symm⟩

/-- Witness for `action_status_state_machine`: its implication conjuncts
instantiated at running/cancel. -/
theorem action_status_state_machine_witness :
    (stepStatus .running .cancel = .aborted →
      ActionStatus.running = .aborted ∨
        (ActionStatus.running = .running ∧ StatusEvent.cancel = .cancel)) ∧
    stepStatus .complete .cancel = .complete :=
  ⟨action_status_state_machine.1 .running .cancel, action_status_state_machine.2.1⟩

/-! Part 3: functions taken directly from the provided sources. -/

/-- Outcome of the fetch to /api/enhancer and of reading its body stream, as
observed by enhancePrompt (src/app/lib/hooks/usePromptEnhancer.ts lines
22-64): the fetch rejects; the response is not ok (the guard throws); the
body has no reader (the guard throws); or the reader delivers the given
decoded chunks, after which either a read rejects (midError) or the stream
is done. -/
inductive FetchOutcome where
  | fetchError
  | notOk
  | noReader
  | stream (chunks : List String) (midError : Bool)
  deriving Repr, DecidableEq

/-- Observable result of one enhancePrompt call: every value passed to
setInput in order, and the final values of the promptEnhanced and
enhancingPrompt flags. -/
structure EnhancerResult where
  inputs : List String
  promptEnhanced : Bool
  enhancingPrompt : Bool
  deriving Repr, DecidableEq

/-- Removes every occurrence of `pat`, scanning left to right with
non-overlapping matches — the behaviour of a global regex replace of a
literal pattern by the empty string.  Fuel-bounded structural recursion;
the fuel exceeds the scanned length, so it never runs out for a nonempty
pattern. -/
def removeAll (pat : List Char) : Nat → List Char → List Char
  | 0, s => s
  | _ + 1, [] => []
  | fuel + 1, c :: rest =>
    if pat.isPrefixOf (c :: rest) then removeAll pat fuel ((c :: rest).drop pat.length)
    else c :: removeAll pat fuel rest

/-- Chunk cleanup of enhancePrompt: strip every "[object Object]" artifact
(the global regex replace at src/app/lib/hooks/usePromptEnhancer.ts lines
57 and 67). -/
def cleanChunk (s : String) : String :=
  String.mk (removeAll "[object Object]".data (s.data.length + 1) s.data)

/-- Leading and trailing whitespace removal, as String.prototype.trim does
for the whitespace characters that occur here. -/
def jsTrim (s : String) : String :=
  String.mk (((s.data.dropWhile Char.isWhitespace).reverse.dropWhile
    Char.isWhitespace).reverse)

/-- Values passed to setInput by the read loop after the initial clear: the
running accumulation of cleaned chunks (src/app/lib/hooks/usePromptEnhancer.ts
lines 47-64). -/
def loopInputs (acc : String) : List String → List String
  | [] => []
  | ch :: rest => (acc ++ cleanChunk ch) :: loopInputs (acc ++ cleanChunk ch) rest

/-- Accumulated enhancement text after the read loop. -/
def streamText (chunks : List String) : String :=
  chunks.foldl (fun a ch => a ++ cleanChunk ch) ""

/-- Embedding of enhancePrompt (src/app/lib/hooks/usePromptEnhancer.ts lines
15-85) as a function of the original input and the fetch outcome.  The
try/catch/finally structure becomes the case split: any thrown error leads
to setInput(originalInput) with promptEnhanced false; a completed stream is
cleaned once more and trimmed, an empty result restores the original input,
and promptEnhanced is set true in both of those branches; the finally block
always resets enhancingPrompt. -/
def enhancePrompt (input : String) (outcome : FetchOutcome) : EnhancerResult :=
  match outcome with
  | .fetchError => ⟨[input], false, false⟩
  | .notOk => ⟨[input], false, false⟩
  | .noReader => ⟨[input], false, false⟩
  | .stream chunks midError =>
    let calls := "" :: loopInputs "" chunks
    if midError then ⟨calls ++ [input], false, false⟩
    else
      let finalInput := jsTrim (cleanChunk (streamText chunks))
      if finalInput ≠ "" then ⟨calls ++ [finalInput], true, false⟩
      else ⟨calls ++ [input], true, false⟩

/-- C9, counterexample to the claim as stated: a streamed enhancement that is
empty after cleanup (one chunk consisting of a single "[object Object]"
artifact) restores the original input as the last setInput value, but
promptEnhanced ends true, not false — setPromptEnhanced(true) runs after the
restore branch as well. -/
theorem enhancePrompt_empty_stream_counterexample :
    (enhancePrompt "hello" (.stream ["[object Object]"] false)).inputs.getLast? =
      some "hello" ∧
    (enhancePrompt "hello" (.stream ["[object Object]"] false)).promptEnhanced = true := by
  decide

/-- C9 as amended: if the request throws, the response is non-ok, the body
has no reader, or a read fails mid-stream, the last value passed to setInput
is the original input and promptEnhanced is false; if the stream completes
but the enhancement is empty after cleanup and trimming, the last setInput
value is the original input yet promptEnhanced is true; if it is nonempty,
the last setInput value is the cleaned and trimmed enhancement and
promptEnhanced is true; in every execution path enhancingPrompt is reset to
false. -/
theorem enhancePrompt_atomicity (input : String) (chunks : List String) :
    enhancePrompt input .fetchError = ⟨[input], false, false⟩ ∧
    enhancePrompt input .notOk = ⟨[input], false, false⟩ ∧
    enhancePrompt input .noReader = ⟨[input], false, false⟩ ∧
    ((enhancePrompt input (.stream chunks true)).inputs.getLast? = some input ∧
      (enhancePrompt input (.stream chunks true)).promptEnhanced = false) ∧
    (jsTrim (cleanChunk (streamText chunks)) = "" →
      (enhancePrompt input (.stream chunks false)).inputs.getLast? = some input ∧
      (enhancePrompt input (.stream chunks false)).promptEnhanced = true) ∧
    (jsTrim (cleanChunk (streamText chunks)) ≠ "" →
      (enhancePrompt input (.stream chunks false)).inputs.getLast? =
        some (jsTrim (cleanChunk (streamText chunks))) ∧
      (enhancePrompt input (.stream chunks false)).promptEnhanced = true) ∧
    (∀ outcome, (enhancePrompt input outcome).enhancingPrompt = false) := by
  refine ⟨rfl, rfl, rfl, ?_, ?_, ?_, ?_⟩
  · refine ⟨?_, rfl⟩
    show (("" :: loopInputs "" chunks) ++ [input]).getLast? = some input
    exact List.getLast?_concat _
  · intro h
    have he : enhancePrompt input (.stream chunks false) =
        ⟨("" :: loopInputs "" chunks) ++ [input], true, false⟩ := by
      simp only [enhancePrompt]
      rw [if_neg (show ¬(false = true) from by decide), if_neg (not_not_intro h)]
    rw [he]
    exact ⟨List.getLast?_concat _, rfl⟩
  · intro h
    have he : enhancePrompt input (.stream chunks false) =
        ⟨("" :: loopInputs "" chunks) ++ [jsTrim (cleanChunk (streamText chunks))],
          true, false⟩ := by
      simp only [enhancePrompt]
      rw [if_neg (show ¬(false = true) from by decide), if_pos h]
    rw [he]
    exact ⟨List.getLast?_concat _, rfl⟩
  · intro o
    cases o with
    | fetchError => rfl
    | notOk => rfl
    | noReader => rfl
    | stream chunks midError =>
      simp only [enhancePrompt]
      split_ifs <;> rfl

/-- Witness for `enhancePrompt_atomicity`: its conditional conjuncts applied
at concrete streams (an artifact-only stream and a normal stream). -/
theorem enhancePrompt_atomicity_witness :
    ((enhancePrompt "draft" (.stream ["[object Object]"] false)).inputs.getLast? =
        some "draft" ∧
      (enhancePrompt "draft" (.stream ["[object Object]"] false)).promptEnhanced = true) ∧
    ((enhancePrompt "draft" (.stream ["better prompt"] false)).inputs.getLast? =
        some (jsTrim (cleanChunk (streamText ["better prompt"]))) ∧
      (enhancePrompt "draft" (.stream ["better prompt"] false)).promptEnhanced = true) :=
  ⟨(enhancePrompt_atomicity "draft" ["[object Object]"]).2.2.2.2.1 (by decide),
   (enhancePrompt_atomicity "draft" ["better prompt"]).2.2.2.2.2.1 (by decide)⟩

/-- Unit names of formatFileSize
(src/app/components/chat/AttachmentDropdown.tsx line 194). -/
def fileSizeUnits : List String := ["Bytes", "KB", "MB", "GB"]

/-- Decimal rendering of a rounded hundredfold value n as JavaScript renders
n / 100 for the magnitudes produced here: no trailing zeros, at most two
decimals. -/
def twoDecString (n : Nat) : String :=
  if n % 100 = 0 then toString (n / 100)
  else if n % 10 = 0 then toString (n / 100) ++ "." ++ toString (n / 10 % 10)
  else toString (n / 100) ++ "." ++ (if n % 100 < 10 then "0" else "") ++
    toString (n % 100)

/-- Half-up rounding of a / b for positive b: Math.round over exact
rationals. -/
def roundDiv (a b : Nat) : Nat := (2 * a + b) / (2 * b)

/-- Embedding of formatFileSize
(src/app/components/chat/AttachmentDropdown.tsx lines 191-197).  The
floating-point Math.floor(Math.log(bytes) / Math.log(1024)) is modelled by
its exact value, the base-1024 integer logarithm (the second conjunct of
`formatFileSize_spec` relates the two); Math.round(bytes / 1024^i * 100) /
100 is modelled exactly over the naturals by `roundDiv`; the out-of-range
indexing sizes[i], which yields undefined in JavaScript and renders as
"undefined" in the concatenation, is modelled by List.getD with default
"undefined". -/
def formatFileSize (bytes : Nat) : String :=
  if bytes = 0 then "0 Bytes"
  else
    let i := Nat.log 1024 bytes
    twoDecString (roundDiv (bytes * 100) (1024 ^ i)) ++ " " ++
      fileSizeUnits.getD i "undefined"

/-- C10: formatFileSize bounds.  formatFileSize 0 is "0 Bytes"; the unit
index is exactly the JavaScript floor(log(bytes)/log(1024)); for 1 ≤ bytes
< 1024^4 the result is the rounded two-decimal number followed by the unit
at that index, which exists in the unit array; for bytes ≥ 1024^4 the index
is at least 4, the array lookup is out of range (none), and the rendered
string carries no valid unit ("undefined"). -/
theorem formatFileSize_spec (bytes : Nat) :
    formatFileSize 0 = "0 Bytes" ∧
    (⌊Real.logb ((1024 : Nat) : ℝ) ((bytes : Nat) : ℝ)⌋ = (Nat.log 1024 bytes : ℤ)) ∧
    (1 ≤ bytes → bytes < 1024 ^ 4 →
      ∃ u, fileSizeUnits.get? (Nat.log 1024 bytes) = some u ∧
        formatFileSize bytes =
          twoDecString (roundDiv (bytes * 100) (1024 ^ Nat.log 1024 bytes)) ++ " " ++ u) ∧
    (1024 ^ 4 ≤ bytes →
      4 ≤ Nat.log 1024 bytes ∧
      fileSizeUnits.get? (Nat.log 1024 bytes) = none ∧
      formatFileSize bytes =
        twoDecString (roundDiv (bytes * 100) (1024 ^ Nat.log 1024 bytes)) ++
          " undefined") := by
  refine ⟨rfl, ?_, ?_, ?_⟩
  · have h := @Real.floor_logb_natCast 1024 ((bytes : Nat) : ℝ) (Nat.cast_nonneg bytes)
    rw [Int.log_natCast] at h
    exact h
  · intro h1 h2
    have hb0 : bytes ≠ 0 := by omega
    have hlog : Nat.log 1024 bytes < 4 :=
      (Nat.lt_pow_iff_log_lt (by norm_num) hb0).mp h2
    obtain ⟨i, hi⟩ : ∃ i, Nat.log 1024 bytes = i := ⟨_, rfl⟩
    rw [hi] at hlog ⊢
    refine ⟨fileSizeUnits.getD i "undefined", ?_, ?_⟩
    · interval_cases i <;> rfl
    · simp only [formatFileSize, if_neg hb0, hi]
  · intro h
    have hpow : (0 : Nat) < 1024 ^ 4 := by positivity
    have hb0 : bytes ≠ 0 := by omega
    have hlog : 4 ≤ Nat.log 1024 bytes :=
      (Nat.pow_le_iff_le_log (by norm_num) hb0).mp h
    have hnone : fileSizeUnits.get? (Nat.log 1024 bytes) = none := by
      refine List.get?_eq_none.mpr ?_
      rw [show fileSizeUnits.length = 4 from rfl]
      exact hlog
    refine ⟨hlog, hnone, ?_⟩
    have hd : fileSizeUnits.getD (Nat.log 1024 bytes) "undefined" = "undefined" := by
      rw [List.getD_eq_getElem?_getD, ← List.get?_eq_getElem?, hnone]
      rfl
    simp only [formatFileSize, if_neg hb0, hd]
    rw [String.append_assoc, show (" " ++ "undefined" : String) = " undefined" from by decide]

/-- Witness for `formatFileSize_spec`: 2048 bytes renders with the KB unit;
1024^4 bytes falls outside the unit array. -/
theorem formatFileSize_spec_witness :
    (∃ u, fileSizeUnits.get? (Nat.log 1024 2048) = some u ∧
      formatFileSize 2048 =
        twoDecString (roundDiv (2048 * 100) (1024 ^ Nat.log 1024 2048)) ++ " " ++ u) ∧
    (4 ≤ Nat.log 1024 (1024 ^ 4) ∧
      fileSizeUnits.get? (Nat.log 1024 (1024 ^ 4)) = none ∧
      formatFileSize (1024 ^ 4) =
        twoDecString (roundDiv (1024 ^ 4 * 100) (1024 ^ Nat.log 1024 (1024 ^ 4))) ++
          " undefined") :=
  ⟨(formatFileSize_spec 2048).2.2.1 (by norm_num) (by norm_num),
   (formatFileSize_spec (1024 ^ 4)).2.2.2 (le_refl _)⟩

end Bolt
